import Mathlib

/-!
Verification of the qbsdk deployment scripts.

This file gives a shallow embedding of the reusable logic fragments of the
repository and proves the testable properties stated in its specification:

  - the file classifier of the frontend deploy script (collectFiles):
    directory walk with name-based exclusion, symlink skipping, size ceiling,
    and source-versus-dist bucketing with marker stripping;
  - the upload retry fragment (uploadFileWithRetry) and the surrounding
    sequential upload loop (syncToS3);
  - the poll-until-terminal fragment (waitForDeployment);
  - the migration runner (pending computation, sequential application,
    append-only tracking table, getAppliedMigrations failure behaviour).

Machine strings are modelled as Lean Strings; the JavaScript string
primitives used by the scripts (startsWith, includes, split, endsWith,
trim truthiness) are re-implemented below by structural recursion over the
character list so that every definition is executable.
-/

/- ───────────────────────── String primitives ───────────────────────── -/

/-- Character-list version of JavaScript String.prototype.startsWith:
true when the second list is a prefix of the first. -/
def startsWithL : List Char → List Char → Bool
  | _, [] => true
  | [], _ :: _ => false
  | c :: cs, p :: ps => c = p && startsWithL cs ps

/-- JavaScript s.startsWith(p). -/
def startsWithS (s p : String) : Bool := startsWithL s.toList p.toList

/-- JavaScript s.endsWith(p). -/
def endsWithS (s p : String) : Bool := startsWithL s.toList.reverse p.toList.reverse

/-- JavaScript s.substring(n) for a character count n (all paths here are
ASCII, so byte and character indices coincide). -/
def dropS (s : String) (n : Nat) : String := String.mk (s.toList.drop n)

/-- Find the first occurrence of the pattern pat in a character list,
returning the characters before it and the characters after it.
Scans left to right, as JavaScript String.prototype.indexOf does.
Only used with a non-empty pattern. -/
def splitAtSub (pat : List Char) : List Char → Option (List Char × List Char)
  | [] => if startsWithL [] pat then some ([], []) else none
  | c :: rest =>
    if startsWithL (c :: rest) pat then some ([], List.drop pat.length (c :: rest))
    else
      match splitAtSub pat rest with
      | some (pre, post) => some (c :: pre, post)
      | none => none

/-- JavaScript s.includes(pat): pat occurs somewhere in s. -/
def includesS (s pat : String) : Bool := (splitAtSub pat.toList s.toList).isSome

/-- Greedy non-overlapping left-to-right split on a pattern, exactly the
semantics of JavaScript String.prototype.split with a non-empty string
separator.  The fuel argument bounds the number of splits; it is
instantiated with the length of the string, which suffices because each
split consumes at least one character of a non-empty separator. -/
def splitOnFuel (pat : List Char) : Nat → List Char → List (List Char)
  | 0, s => [s]
  | fuel + 1, s =>
    match splitAtSub pat s with
    | none => [s]
    | some (pre, post) => pre :: splitOnFuel pat fuel post

/-- JavaScript s.split(pat) for a non-empty separator pat. -/
def splitOnS (s pat : String) : List String :=
  (splitOnFuel pat.toList s.toList.length s.toList).map String.mk

/-- Whitespace characters removed by JavaScript String.prototype.trim. -/
def isSpaceChar (c : Char) : Bool :=
  c = ' ' || c = '\t' || c = '\n' || c = '\r' || c = '\x0b' || c = '\x0c'

/-- JavaScript truthiness of f.trim(): true when the string has at least one
non-whitespace character (used by the migration list filter). -/
def trimTruthy (f : String) : Bool := f.toList.any (fun c => !(isSpaceChar c))

/- ───────────────────────── File classifier (collectFiles) ───────────────────────── -/

/-- A node of the local directory tree walked by collectFiles.  A symlink
node carries the subtree it points at; the walk must never consult it.
Sizes are byte counts. -/
inductive FSTree where
  | file (name : String) (size : Nat) : FSTree
  | symlink (name : String) (target : List FSTree) : FSTree
  | dir (name : String) (entries : List FSTree) : FSTree

/-- Relative-path join with forward slashes, as produced by
path.relative plus the backslash normalisation in collectFiles. -/
def joinRel (dirRel name : String) : String :=
  if dirRel = "" then name else dirRel ++ "/" ++ name

/-- The traversal of collectFiles (function walk, src/unnamed/part_000
lines 193 to 253), restricted to deciding which files are reached:
entries named node_modules are skipped entirely (files and directories
alike), symlinks are skipped unconditionally, directories are recursed
into, and every reached file is listed with its relative path and size,
in traversal order.  Unreadable directories (the readdirSync catch) are
not modelled: the tree is given as data. -/
def reachedFiles (dirRel : String) : List FSTree → List (String × Nat)
  | [] => []
  | .file name size :: rest =>
    (if name = "node_modules" then [] else [(joinRel dirRel name, size)])
      ++ reachedFiles dirRel rest
  | .symlink _ _ :: rest => reachedFiles dirRel rest
  | .dir name entries :: rest =>
    (if name = "node_modules" then [] else reachedFiles (joinRel dirRel name) entries)
      ++ reachedFiles dirRel rest

/-- One entry of the upload task lists built by collectFiles:
fullPath (kept relative to the walk root here), s3Key, size. -/
structure UploadTask where
  relPath : String
  s3Key : String
  size : Nat
deriving DecidableEq

/-- The result record of collectFiles. -/
structure CollectResult where
  sourceFiles : List UploadTask
  distFiles : List UploadTask
  warnings : List String
deriving DecidableEq

/-- The dist test of collectFiles (line 228):
relPath.startsWith("dist/") || relPath.includes("/dist/"). -/
def isDistPath (relPath : String) : Bool :=
  startsWithS relPath "dist/" || includesS relPath "/dist/"

/-- The dist path normalisation of collectFiles (lines 231 to 238):
strip the leading "dist/" when the path starts with it; otherwise split
on "/dist/" and take the second field of the split. -/
def distRelPathOf (relPath : String) : String :=
  if startsWithS relPath "dist/" then dropS relPath 5
  else
    let parts := splitOnS relPath "/dist/"
    if parts.length > 1 then parts.getD 1 "" else relPath

/-- Modelled from the spec: the destination path with the output-folder
marker segment stripped exactly once, that is, with the prefix up to and
including the first marker occurrence removed (for a path that starts
with the marker, with that leading marker removed).  Defined from the
spec wording, for comparison with distRelPathOf, which is defined from
the code. -/
def stripMarkerOnce (relPath : String) : String :=
  if startsWithS relPath "dist/" then dropS relPath 5
  else
    match splitAtSub "/dist/".toList relPath.toList with
    | some (_, post) => String.mk post
    | none => relPath

/-- The per-file body of the walk loop (lines 220 to 251): files over the
size ceiling produce one warning and are dropped; remaining files are
routed to the dist list (with the normalised key under basePath/dist/) or
to the source list (full relative path under basePath/source/).  The
human-readable megabyte figure of the warning message is elided. -/
def classifyFiles (basePath : String) (maxFileSize : Nat) :
    List (String × Nat) → CollectResult
  | [] => ⟨[], [], []⟩
  | (relPath, size) :: rest =>
    let r := classifyFiles basePath maxFileSize rest
    if size > maxFileSize then
      { r with warnings := ("Skipping large file: " ++ relPath) :: r.warnings }
    else if isDistPath relPath then
      { r with distFiles :=
          ⟨relPath, basePath ++ "/dist/" ++ distRelPathOf relPath, size⟩ :: r.distFiles }
    else
      { r with sourceFiles :=
          ⟨relPath, basePath ++ "/source/" ++ relPath, size⟩ :: r.sourceFiles }

/-- collectFiles (src/unnamed/part_000 lines 187 to 257): walk the tree
from the root and classify every reached file.  basePath stands for
CDN_CODEBASE_BASE_PATH/URL_SLUG. -/
def collectFiles (basePath : String) (maxFileSize : Nat) (root : List FSTree) :
    CollectResult :=
  classifyFiles basePath maxFileSize (reachedFiles "" root)

/-- Remove every symlink node from a tree, everywhere.  The walk of
collectFiles neither follows nor lists symlinks, so running it on the
pruned tree must give the same result as on the original tree. -/
def pruneSymlinks : List FSTree → List FSTree
  | [] => []
  | .file n s :: rest => .file n s :: pruneSymlinks rest
  | .symlink _ _ :: rest => pruneSymlinks rest
  | .dir n es :: rest => .dir n (pruneSymlinks es) :: pruneSymlinks rest

/-- The example project tree of the specification: dist/index.html of 10
bytes, src/app.ts of 20 bytes, a huge node_modules/x/y.js, and a symlink
named link pointing at the source file. -/
def exampleProjectTree : List FSTree :=
  [ .dir "dist" [.file "index.html" 10],
    .symlink "link" [.file "app.ts" 20],
    .dir "node_modules" [.dir "x" [.file "y.js" 2000000]],
    .dir "src" [.file "app.ts" 20] ]

/- ───────────────────────── Poll fragment (waitForDeployment) ───────────────────────── -/

/-- Kind of outcome of waitForDeployment (src/unnamed/part_000 lines 853
to 884): returning the ready deployment, throwing after fetching the build
logs (status failed), throwing without a diagnostic fetch (status error),
or throwing the timeout error after exhausting the attempts. -/
inductive PollOutcome where
  | ready : PollOutcome
  | failedLogs : PollOutcome
  | errored : PollOutcome
  | timeout : PollOutcome
deriving DecidableEq

/-- Observable behaviour of one run of waitForDeployment: the outcome kind,
how many status fetches were issued, and how many supplementary
build-log fetches were issued. -/
structure PollRun where
  outcome : PollOutcome
  statusFetches : Nat
  logFetches : Nat
deriving DecidableEq

/-- The attempt loop of waitForDeployment.  status gives the deployment
status string returned by the n-th status fetch (attempts are numbered
from 1 as in the script); remaining is the number of attempts left.
Statuses other than success, failed and error sleep and re-poll. -/
def waitGo (status : Nat → String) (attempt : Nat) : Nat → PollRun
  | 0 => ⟨.timeout, 0, 0⟩
  | remaining + 1 =>
    let st := status attempt
    if st = "success" then ⟨.ready, 1, 0⟩
    else if st = "failed" then ⟨.failedLogs, 1, 1⟩
    else if st = "error" then ⟨.errored, 1, 0⟩
    else
      let r := waitGo status (attempt + 1) remaining
      ⟨r.outcome, r.statusFetches + 1, r.logFetches⟩

/-- waitForDeployment with maxAttempts attempts (the script default is 30,
from DENO_DEPLOYMENT_MAX_ATTEMPTS). -/
def waitForDeployment (status : Nat → String) (maxAttempts : Nat) : PollRun :=
  waitGo status 1 maxAttempts

/-- The status-fetch sequence pending, pending, success (and success from
then on). -/
def seqPPS : Nat → String := fun n => if n ≤ 2 then "pending" else "success"

/-- The status-fetch sequence pending, failed (and failed from then on). -/
def seqPF : Nat → String := fun n => if n = 1 then "pending" else "failed"

/- ───────────────────────── Retry fragment (uploadFileWithRetry) ───────────────────────── -/

/-- Observable behaviour of uploadFileWithRetry: overall success flag,
number of invocations of the wrapped upload operation, the inter-attempt
delays in milliseconds in order, and the recorded last error. -/
structure RetryResult where
  success : Bool
  invocations : Nat
  delays : List Nat
  lastError : Option String
deriving DecidableEq

/-- The attempt loop of uploadFileWithRetry (src/unnamed/part_000 lines
263 to 288).  op gives the outcome of the i-th invocation of the wrapped
upload (none is success, some e a failure with error e); attempt is the
0-based loop counter; remaining counts the attempts left, so the guard
attempt < maxRetries - 1 of the script becomes 0 < remaining. -/
def uploadGo (op : Nat → Option String) (attempt : Nat) (lastError : Option String) :
    Nat → RetryResult
  | 0 => ⟨false, 0, [], lastError⟩
  | remaining + 1 =>
    match op attempt with
    | none => ⟨true, 1, [], none⟩
    | some e =>
      let r := uploadGo op (attempt + 1) (some e) remaining
      ⟨r.success, r.invocations + 1,
        (if 0 < remaining then [2 ^ attempt * 1000] else []) ++ r.delays, r.lastError⟩

/-- uploadFileWithRetry: run the attempt loop from attempt 0 with no error
recorded yet.  The script default for maxRetries is 3. -/
def uploadFileWithRetry (op : Nat → Option String) (maxRetries : Nat) : RetryResult :=
  uploadGo op 0 none maxRetries

/- ───────────────────────── Upload loop (syncToS3) ───────────────────────── -/

/-- Observable behaviour of the upload loop of syncToS3: the uploaded
counter, the collected error strings, and the processed trace, one entry
(s3Key, success flag) per file in completion order. -/
structure SyncOutcome where
  uploaded : Nat
  errors : List String
  processed : List (String × Bool)
deriving DecidableEq

/-- The per-file upload loop of syncToS3 (src/unnamed/part_000 lines 337
to 354): each file is awaited in turn; a success bumps the counter, a
failure appends one error string; the loop never aborts early.  upl gives
the RetryResult of uploadFileWithRetry for each file.  The processed
trace records the strictly sequential completion order. -/
def syncLoop (upl : UploadTask → RetryResult) : List UploadTask → SyncOutcome
  | [] => ⟨0, [], []⟩
  | f :: rest =>
    let r := upl f
    let o := syncLoop upl rest
    if r.success then ⟨o.uploaded + 1, o.errors, (f.s3Key, true) :: o.processed⟩
    else
      ⟨o.uploaded,
        ("Failed to upload " ++ f.s3Key ++ ": " ++
          (r.lastError.getD "Upload failed after all retries")) :: o.errors,
        (f.s3Key, false) :: o.processed⟩

/-- The upload phase of syncToS3 (line 331): allFiles is the source list
followed by the dist list, uploaded strictly one at a time in that order. -/
def syncToS3 (upl : UploadTask → RetryResult) (c : CollectResult) : SyncOutcome :=
  syncLoop upl (c.sourceFiles ++ c.distFiles)

/- ───────────────────────── Migration runner (qb-db-migrate) ───────────────────────── -/

/-- Total order used to model the JavaScript default Array.prototype.sort
comparator on filenames: lexicographic on the character code points
(UTF-16 code-unit order and code-point order agree on the Basic
Multilingual Plane, which covers migration filenames). -/
def leChars : List Char → List Char → Bool
  | [], _ => true
  | _ :: _, [] => false
  | a :: as, b :: bs =>
    if a.toNat < b.toNat then true
    else if b.toNat < a.toNat then false
    else leChars as bs

/-- Filename comparison for the sort. -/
def leString (a b : String) : Bool := leChars a.toList b.toList

/-- Insert a filename into an already sorted list. -/
def insertSorted (f : String) : List String → List String
  | [] => [f]
  | g :: rest => if leString f g then f :: g :: rest else g :: insertSorted f rest

/-- Model of the sort applied to the migration filenames. -/
def sortStrings : List String → List String
  | [] => []
  | f :: rest => insertSorted f (sortStrings rest)

/-- The sqlFiles computation of qb-db-migrate (src/unnamed/part_001 line
145): keep the names ending in .sql and sort them. -/
def sqlFilesOf (listing : List String) : List String :=
  sortStrings (listing.filter (fun f => endsWithS f ".sql"))

/-- getAppliedMigrations (src/unnamed/part_001 lines 125 to 132): run the
SELECT through psql; on any failure return the empty list; otherwise split
the trimmed output on newlines and keep the lines whose trim is truthy.
The psql argument is the result of runPsql: the trimmed stdout on exit
code 0, or an error. -/
def getAppliedMigrations (psql : Except String String) : List String :=
  match psql with
  | .error _ => []
  | .ok result =>
    if result = "" then []
    else (splitOnS result "\n").filter (fun f => trimTruthy f)

/-- pendingMigrations (line 154): the sql files whose name is not in the
applied list. -/
def pendingOf (sqlFiles applied : List String) : List String :=
  sqlFiles.filter (fun f => !(applied.contains f))

/-- Observable behaviour of the apply loop: the filenames applied and
recorded this run in order, and the failing file if the loop aborted. -/
structure MigrationOutcome where
  appliedThisRun : List String
  failedFile : Option String
deriving DecidableEq

/-- The apply loop of qb-db-migrate (src/unnamed/part_001 lines 168 to
203): apply each pending file in order; on success, INSERT its name into
the tracking table (recordMigration) and append it to appliedThisRun; on
the first failure of either the psql apply or the INSERT, print the
partial summary and exit, applying nothing further.  step gives the
combined outcome of applying-and-recording one file (none is success). -/
def applyLoop (step : String → Option String) : List String → MigrationOutcome
  | [] => ⟨[], none⟩
  | f :: rest =>
    match step f with
    | some _ => ⟨[], some f⟩
    | none =>
      let o := applyLoop step rest
      ⟨f :: o.appliedThisRun, o.failedFile⟩

/-- The tracking table content after a run: recordMigration only ever
INSERTs one row per newly applied filename, so the final filename column
is the initial one with the names applied this run appended. -/
def finalTable (initial appliedThisRun : List String) : List String :=
  initial ++ appliedThisRun

/- ═════════════════════════ Theorems ═════════════════════════ -/

/- ───────── Classifier helper lemmas ───────── -/

/-- A split always has at least one field. -/
theorem splitOnFuel_ne_nil (pat : List Char) (fuel : Nat) (s : List Char) :
    splitOnFuel pat fuel s ≠ [] := by
  cases fuel with
  | zero => simp [splitOnFuel]
  | succ n =>
    simp only [splitOnFuel]
    cases splitAtSub pat s with
    | none => simp
    | some pp => cases pp with | mk pre post => simp

/-- A one-field split is the whole string. -/
theorem splitOnFuel_length_one (pat : List Char) (fuel : Nat) (s : List Char)
    (h : (splitOnFuel pat fuel s).length = 1) : splitOnFuel pat fuel s = [s] := by
  cases fuel with
  | zero => rfl
  | succ n =>
    simp only [splitOnFuel] at h ⊢
    cases hsp : splitAtSub pat s with
    | none => rfl
    | some pp =>
      cases pp with
      | mk pre post =>
        simp [hsp] at h
        exact absurd h (splitOnFuel_ne_nil pat n post)

/-- When the pattern does not occur, the split is one field. -/
theorem splitOnFuel_of_none (pat : List Char) (fuel : Nat) (s : List Char)
    (h : splitAtSub pat s = none) : splitOnFuel pat fuel s = [s] := by
  cases fuel with
  | zero => rfl
  | succ n => simp only [splitOnFuel, h]

/-- A split with at most two fields whose pattern occurs is exactly the
field before the first occurrence and the whole remainder after it. -/
theorem splitOnFuel_two_fields (pat : List Char) (fuel : Nat) (s pre post : List Char)
    (hsp : splitAtSub pat s = some (pre, post))
    (hlen : (splitOnFuel pat (fuel + 1) s).length ≤ 2) :
    splitOnFuel pat (fuel + 1) s = [pre, post] := by
  simp only [splitOnFuel, hsp] at hlen ⊢
  have h1 : (splitOnFuel pat fuel post).length = 1 := by
    have hne := splitOnFuel_ne_nil pat fuel post
    have hpos : 0 < (splitOnFuel pat fuel post).length := List.length_pos.mpr hne
    simp only [List.length_cons] at hlen
    omega
  rw [splitOnFuel_length_one pat fuel post h1]

/-- A non-empty pattern never occurs in the empty string. -/
theorem splitAtSub_nil (c : Char) (pat : List Char) :
    splitAtSub (c :: pat) [] = none := by
  simp [splitAtSub, startsWithL]

/-- Agreement of the code's dist-path normalisation with the spec's
strip-the-marker-exactly-once description: the two coincide whenever the
path starts with the marker, or contains at most one interior marker
occurrence (split fields at most two). -/
theorem distRelPathOf_eq_stripMarkerOnce (relPath : String)
    (h : startsWithS relPath "dist/" = true ∨ (splitOnS relPath "/dist/").length ≤ 2) :
    distRelPathOf relPath = stripMarkerOnce relPath := by
  by_cases hs : startsWithS relPath "dist/" = true
  · simp [distRelPathOf, stripMarkerOnce, hs]
  · have hlen : (splitOnS relPath "/dist/").length ≤ 2 := h.resolve_left hs
    simp only [distRelPathOf, stripMarkerOnce, hs, Bool.false_eq_true, if_false]
    cases hsp : splitAtSub "/dist/".toList relPath.toList with
    | none =>
      have hone : splitOnS relPath "/dist/" = [String.mk relPath.toList] := by
        unfold splitOnS
        rw [splitOnFuel_of_none "/dist/".toList relPath.toList.length relPath.toList hsp]
        rfl
      simp [hone]
    | some pp =>
      cases pp with
      | mk pre post =>
        have hcons : relPath.toList ≠ [] := by
          intro hnil
          rw [hnil] at hsp
          rw [show "/dist/".toList = '/' :: ['d', 'i', 's', 't', '/'] from rfl,
            splitAtSub_nil] at hsp
          exact Option.noConfusion hsp
        obtain ⟨c, cs, hc⟩ : ∃ c cs, relPath.toList = c :: cs := by
          cases hx : relPath.toList with
          | nil => exact absurd hx hcons
          | cons c cs => exact ⟨c, cs, rfl⟩
        have hlen2 : (splitOnFuel "/dist/".toList relPath.toList.length relPath.toList).length ≤ 2 := by
          unfold splitOnS at hlen
          simpa using hlen
        have hform : splitOnFuel "/dist/".toList relPath.toList.length relPath.toList = [pre, post] := by
          rw [hc] at hsp hlen2 ⊢
          rw [List.length_cons] at hlen2 ⊢
          exact splitOnFuel_two_fields "/dist/".toList cs.length (c :: cs) pre post hsp hlen2
        unfold splitOnS
        rw [hform]
        simp

/-- Every task in the dist list carries the key built by the code from its
own relative path. -/
theorem classifyFiles_dist_shape (b : String) (m : Nat) (files : List (String × Nat)) :
    ∀ task ∈ (classifyFiles b m files).distFiles,
      task.s3Key = b ++ "/dist/" ++ distRelPathOf task.relPath
      ∧ isDistPath task.relPath = true := by
  induction files with
  | nil => intro task ht; simp [classifyFiles] at ht
  | cons f rest ih =>
    obtain ⟨rp, sz⟩ := f
    intro task ht
    simp only [classifyFiles] at ht
    by_cases hsz : sz > m
    · simp only [hsz, if_pos] at ht
      exact ih task ht
    · simp only [hsz, if_neg, if_false] at ht
      by_cases hd : isDistPath rp = true
      · simp only [hd, if_pos] at ht
        rcases List.mem_cons.mp ht with hh | hh
        · subst hh; exact ⟨rfl, hd⟩
        · exact ih task hh
      · simp only [hd, Bool.false_eq_true, if_false] at ht
        exact ih task ht

/-- Every task in the source list keeps its full relative path as key
under the source prefix. -/
theorem classifyFiles_source_shape (b : String) (m : Nat) (files : List (String × Nat)) :
    ∀ task ∈ (classifyFiles b m files).sourceFiles,
      task.s3Key = b ++ "/source/" ++ task.relPath
      ∧ isDistPath task.relPath = false := by
  induction files with
  | nil => intro task ht; simp [classifyFiles] at ht
  | cons f rest ih =>
    obtain ⟨rp, sz⟩ := f
    intro task ht
    simp only [classifyFiles] at ht
    by_cases hsz : sz > m
    · simp only [hsz, if_pos] at ht
      exact ih task ht
    · simp only [hsz, if_neg, if_false] at ht
      by_cases hd : isDistPath rp = true
      · simp only [hd, if_pos] at ht
        exact ih task ht
      · simp only [hd, Bool.false_eq_true, if_false] at ht
        rcases List.mem_cons.mp ht with hh | hh
        · subst hh; exact ⟨rfl, Bool.not_eq_true _ |>.mp hd⟩
        · exact ih task hh

/- ───────── C1: destination keys ───────── -/

/-- C1 (amended): every file the classifier routes to the built-artifacts
list gets the destination key built from the second field of splitting
its relative path on the marker (equivalently, the leading marker
stripped when the path starts with it); this equals the path with the
marker segment stripped exactly once whenever the path starts with the
marker or contains at most one interior marker occurrence.  Every file
routed to the source list keeps its full relative path as destination key
under the source prefix. -/
theorem collectFiles_destKeys (basePath : String) (maxFileSize : Nat) (root : List FSTree) :
    (∀ task ∈ (collectFiles basePath maxFileSize root).distFiles,
        task.s3Key = basePath ++ "/dist/" ++ distRelPathOf task.relPath
        ∧ ((startsWithS task.relPath "dist/" = true ∨
              (splitOnS task.relPath "/dist/").length ≤ 2) →
            task.s3Key = basePath ++ "/dist/" ++ stripMarkerOnce task.relPath))
    ∧ (∀ task ∈ (collectFiles basePath maxFileSize root).sourceFiles,
        task.s3Key = basePath ++ "/source/" ++ task.relPath) := by
  constructor
  · intro task ht
    have h := classifyFiles_dist_shape basePath maxFileSize (reachedFiles "" root) task ht
    refine ⟨h.1, fun hcase => ?_⟩
    rw [h.1, distRelPathOf_eq_stripMarkerOnce task.relPath hcase]
  · intro task ht
    exact (classifyFiles_source_shape basePath maxFileSize (reachedFiles "" root) task ht).1

/-- C1 counterexample: for the file a/dist/b/dist/c, whose relative path
contains the marker twice, the code produces the destination key
base/dist/b (the segment strictly between the two marker occurrences),
not the marker-stripped-once key base/dist/b/dist/c. -/
theorem collectFiles_destKeys_cex :
    (collectFiles "base" 100
        [.dir "a" [.dir "dist" [.dir "b" [.dir "dist" [.file "c" 1]]]]]).distFiles =
      [⟨"a/dist/b/dist/c", "base/dist/b", 1⟩]
    ∧ "base/dist/b" ≠ "base" ++ "/dist/" ++ stripMarkerOnce "a/dist/b/dist/c" := by
  constructor
  · have h : reachedFiles ""
        [FSTree.dir "a" [.dir "dist" [.dir "b" [.dir "dist" [.file "c" 1]]]]] =
        [("a/dist/b/dist/c", 1)] := by
      simp [reachedFiles, joinRel]
    rw [collectFiles, h]
    decide
  · decide

/-- C1 witness: the amended theorem applied to a one-file project whose
dist path contains the marker once. -/
theorem collectFiles_destKeys_witness :
    ((⟨"dist/x", "b/dist/x", 1⟩ : UploadTask) ∈
        (collectFiles "b" 10 [.dir "dist" [.file "x" 1]]).distFiles)
    ∧ (⟨"dist/x", "b/dist/x", 1⟩ : UploadTask).s3Key =
        "b" ++ "/dist/" ++ distRelPathOf (⟨"dist/x", "b/dist/x", 1⟩ : UploadTask).relPath := by
  have hmem : (⟨"dist/x", "b/dist/x", 1⟩ : UploadTask) ∈
      (collectFiles "b" 10 [.dir "dist" [.file "x" 1]]).distFiles := by
    have h : reachedFiles "" [FSTree.dir "dist" [.file "x" 1]] = [("dist/x", 1)] := by
      simp [reachedFiles, joinRel]
    rw [collectFiles, h]
    decide
  exact ⟨hmem,
    ((collectFiles_destKeys "b" 10 [.dir "dist" [.file "x" 1]]).1 _ hmem).1⟩

/- ───────── C5: oversized files ───────── -/

/-- The warnings of the classification are exactly one warning, in order,
per reached file over the ceiling. -/
theorem classifyFiles_warnings (b : String) (m : Nat) (files : List (String × Nat)) :
    (classifyFiles b m files).warnings =
      (files.filter (fun f => m < f.2)).map (fun f => "Skipping large file: " ++ f.1) := by
  induction files with
  | nil => simp [classifyFiles]
  | cons f rest ih =>
    obtain ⟨rp, sz⟩ := f
    by_cases hsz : m < sz
    · simp [classifyFiles, Nat.lt_iff_add_one_le.mp hsz, hsz, ih]
    · have hgt : ¬ sz > m := hsz
      by_cases hd : isDistPath rp = true <;>
        simp [classifyFiles, hgt, hsz, hd, ih]

/-- No task in either destination list exceeds the ceiling. -/
theorem classifyFiles_size_le (b : String) (m : Nat) (files : List (String × Nat)) :
    (∀ task ∈ (classifyFiles b m files).sourceFiles, task.size ≤ m)
    ∧ (∀ task ∈ (classifyFiles b m files).distFiles, task.size ≤ m) := by
  induction files with
  | nil => simp [classifyFiles]
  | cons f rest ih =>
    obtain ⟨rp, sz⟩ := f
    by_cases hsz : sz > m
    · simpa [classifyFiles, hsz] using ih
    · have hle : sz ≤ m := Nat.le_of_not_lt hsz
      by_cases hd : isDistPath rp = true
      · refine ⟨?_, ?_⟩ <;> intro task ht <;>
          simp only [classifyFiles, hsz, if_false, hd, if_pos] at ht
        · exact ih.1 task ht
        · rcases List.mem_cons.mp ht with hh | hh
          · subst hh; exact hle
          · exact ih.2 task hh
      · refine ⟨?_, ?_⟩ <;> intro task ht <;>
          simp only [classifyFiles, hsz, if_false, hd, Bool.false_eq_true] at ht
        · rcases List.mem_cons.mp ht with hh | hh
          · subst hh; exact hle
          · exact ih.1 task hh
        · exact ih.2 task ht

/-- C5 (amended): for every file reached by the traversal (that is, not
skipped by the node_modules name exclusion and not behind a symlink)
whose size exceeds the ceiling, the classifier emits exactly one warning,
in traversal order, and no oversized file ever appears in either upload
task list.  Files excluded by name or as symlinks are dropped silently,
with no warning, even when oversized. -/
theorem collectFiles_oversized (basePath : String) (maxFileSize : Nat) (root : List FSTree) :
    (collectFiles basePath maxFileSize root).warnings =
      ((reachedFiles "" root).filter (fun f => maxFileSize < f.2)).map
        (fun f => "Skipping large file: " ++ f.1)
    ∧ (∀ task ∈ (collectFiles basePath maxFileSize root).sourceFiles,
        task.size ≤ maxFileSize)
    ∧ (∀ task ∈ (collectFiles basePath maxFileSize root).distFiles,
        task.size ≤ maxFileSize) :=
  ⟨classifyFiles_warnings basePath maxFileSize (reachedFiles "" root),
   (classifyFiles_size_le basePath maxFileSize (reachedFiles "" root)).1,
   (classifyFiles_size_le basePath maxFileSize (reachedFiles "" root)).2⟩

/-- C5 counterexample: a 101-byte file under node_modules with ceiling 100
is oversized and appears in neither destination list, yet the classifier
emits no warning for it: the name-based exclusion fires before the size
check. -/
theorem collectFiles_oversized_cex :
    100 < 101
    ∧ collectFiles "base" 100 [.dir "node_modules" [.file "y.js" 101]] =
        ⟨[], [], []⟩ := by
  constructor
  · decide
  · have h : reachedFiles "" [FSTree.dir "node_modules" [.file "y.js" 101]] = [] := by
      simp [reachedFiles]
    rw [collectFiles, h]
    rfl

/-- C5 witness: the amended theorem applied to a two-file tree with one
oversized file. -/
theorem collectFiles_oversized_witness :
    (collectFiles "b" 100 [.file "big.bin" 101, .file "ok.txt" 5]).warnings =
      ((reachedFiles "" [.file "big.bin" 101, .file "ok.txt" 5]).filter
          (fun f => 100 < f.2)).map (fun f => "Skipping large file: " ++ f.1)
    ∧ (∀ task ∈ (collectFiles "b" 100 [.file "big.bin" 101, .file "ok.txt" 5]).sourceFiles,
        task.size ≤ 100)
    ∧ (∀ task ∈ (collectFiles "b" 100 [.file "big.bin" 101, .file "ok.txt" 5]).distFiles,
        task.size ≤ 100) :=
  collectFiles_oversized "b" 100 [.file "big.bin" 101, .file "ok.txt" 5]

/- ───────── C6: symlinks ───────── -/

/-- The traversal never enters a symlink and never lists one: removing
every symlink node from the tree leaves the reached file list unchanged. -/
theorem reachedFiles_pruneSymlinks : ∀ (dirRel : String) (l : List FSTree),
    reachedFiles dirRel (pruneSymlinks l) = reachedFiles dirRel l
  | _, [] => by simp only [pruneSymlinks]
  | d, .file n s :: rest => by
    simp only [pruneSymlinks, reachedFiles, reachedFiles_pruneSymlinks d rest]
  | d, .symlink n t :: rest => by
    simp only [pruneSymlinks, reachedFiles, reachedFiles_pruneSymlinks d rest]
  | d, .dir n es :: rest => by
    simp only [pruneSymlinks, reachedFiles, reachedFiles_pruneSymlinks d rest,
      reachedFiles_pruneSymlinks (joinRel d n) es]

/-- C6: the classifier neither traverses into nor lists any symbolic link,
wherever it occurs and whatever it points at: its result on a tree equals
its result on the tree with every symlink removed, and a lone symlink
contributes nothing. -/
theorem collectFiles_skips_symlinks (basePath : String) (maxFileSize : Nat) :
    (∀ root : List FSTree,
        collectFiles basePath maxFileSize (pruneSymlinks root) =
          collectFiles basePath maxFileSize root)
    ∧ (∀ (name : String) (target : List FSTree),
        collectFiles basePath maxFileSize [.symlink name target] = ⟨[], [], []⟩) := by
  constructor
  · intro root
    rw [collectFiles, collectFiles, reachedFiles_pruneSymlinks "" root]
  · intro name target
    have h : reachedFiles "" [FSTree.symlink name target] = [] := by
      simp [reachedFiles]
    rw [collectFiles, h]
    rfl

/- ───────── C8: example scenario ───────── -/

/-- C8: on the example tree (dist/index.html of 10 bytes, src/app.ts of
20 bytes, a huge node_modules/x/y.js, a symlink named link), with the
node_modules exclusion, the dist marker and a 1MB ceiling, the classifier
returns exactly one built artifact, dist/index.html mapped to index.html
under the dist prefix, exactly one source file, src/app.ts mapped to its
full relative path under the source prefix, and no warnings: the
name-based exclusion fires before the size check, so the huge file
produces no warning, and the symlink is skipped. -/
theorem collectFiles_example_scenario :
    collectFiles "coder-agent-output/slug" 1048576 exampleProjectTree =
      ⟨[⟨"src/app.ts", "coder-agent-output/slug/source/src/app.ts", 20⟩],
       [⟨"dist/index.html", "coder-agent-output/slug/dist/index.html", 10⟩],
       []⟩
    ∧ distRelPathOf "dist/index.html" = "index.html" := by
  constructor
  · have h : reachedFiles "" exampleProjectTree =
        [("dist/index.html", 10), ("src/app.ts", 20)] := by
      simp [reachedFiles, exampleProjectTree, joinRel]
    rw [collectFiles, h]
    decide
  · decide

/- ───────── C2: poll fragment ───────── -/

/-- An all-pending status run exhausts its whole attempt budget and ends
in the timeout outcome with no diagnostic fetch. -/
theorem waitGo_all_pending : ∀ (a n : Nat),
    waitGo (fun _ => "pending") a n = ⟨.timeout, n, 0⟩
  | _, 0 => rfl
  | a, n + 1 => by
    simp [waitGo, waitGo_all_pending (a + 1) n]

/-- C2 (amended): with the default 30-attempt budget, the sequence
pending, pending, success returns the ready outcome after exactly 3
status fetches; the sequence pending, failed ends after exactly 2 status
fetches, with no further poll, and performs exactly one diagnostic
build-log fetch; a first status of error ends immediately after 1 status
fetch with no diagnostic fetch, for any positive budget; an all-pending
sequence exhausts any budget of m attempts after exactly m fetches and
ends in the timeout outcome, which is a kind distinct from both
explicit-failure kinds. -/
theorem waitForDeployment_spec :
    waitForDeployment seqPPS 30 = ⟨.ready, 3, 0⟩
    ∧ waitForDeployment seqPF 30 = ⟨.failedLogs, 2, 1⟩
    ∧ (∀ m : Nat, waitForDeployment (fun _ => "error") (m + 1) = ⟨.errored, 1, 0⟩)
    ∧ (∀ m : Nat, waitForDeployment (fun _ => "pending") m = ⟨.timeout, m, 0⟩)
    ∧ PollOutcome.timeout ≠ PollOutcome.failedLogs
    ∧ PollOutcome.timeout ≠ PollOutcome.errored := by
  refine ⟨by decide, by decide, ?_, ?_, by decide, by decide⟩
  · intro m
    simp [waitForDeployment, waitGo]
  · intro m
    exact waitGo_all_pending 1 m

/-- C2 counterexample: the status error is a terminal failure state, yet
the poll fragment then fails with zero supplementary diagnostic fetches,
contradicting the claim that a terminal failure state in general fetches
diagnostic detail. -/
theorem waitForDeployment_spec_cex :
    (waitForDeployment (fun _ => "error") 30).outcome = .errored
    ∧ ¬ 1 ≤ (waitForDeployment (fun _ => "error") 30).logFetches := by
  decide

/- ───────── C3 and C4: retry fragment ───────── -/

set_option maxRecDepth 4000 in
/-- Run of the retry loop when the operation fails k times from the
current attempt on and then succeeds, with more than k attempts left:
success after k + 1 more invocations, with the geometric delays and no
delay after the final invocation. -/
theorem uploadGo_eventual_success (op : Nat → Option String) :
    ∀ (k a remaining : Nat) (le : Option String), k < remaining →
      (∀ i, i < k → (op (a + i)).isSome) → op (a + k) = none →
      uploadGo op a le remaining =
        ⟨true, k + 1, (List.range k).map (fun i => 2 ^ (a + i) * 1000), none⟩
  | 0, a, r + 1, le, _, _, hs => by
    rw [Nat.add_zero] at hs
    simp [uploadGo, hs]
  | k + 1, a, r + 1, le, hk, hf, hs => by
    have h0 : (op a).isSome := by simpa using hf 0 (Nat.succ_pos k)
    obtain ⟨e, he⟩ := Option.isSome_iff_exists.mp h0
    have hkr : k < r := Nat.lt_of_succ_lt_succ hk
    have ih := uploadGo_eventual_success op k (a + 1) r (some e) hkr
      (fun i hi => by
        have h := hf (i + 1) (Nat.succ_lt_succ hi)
        have harg : a + (i + 1) = a + 1 + i := by omega
        rwa [harg] at h)
      (by
        have harg : a + (k + 1) = a + 1 + k := by omega
        rwa [harg] at hs)
    have hr : 0 < r := Nat.lt_of_le_of_lt (Nat.zero_le k) hkr
    have hdel : 2 ^ a * 1000 :: (List.range k).map (fun i => 2 ^ (a + 1 + i) * 1000) =
        (List.range (k + 1)).map (fun i => 2 ^ (a + i) * 1000) := by
      rw [List.range_succ_eq_map]
      simp only [List.map_cons, Nat.add_zero, List.map_map]
      congr 1
      apply List.map_congr_left
      intro i _
      have harg : a + 1 + i = a + Nat.succ i := by omega
      simp [Function.comp, harg]
    simp [uploadGo, he, ih, hr, hdel]

/-- C3: if the wrapped upload fails exactly k times and then succeeds,
with k below the attempt budget, the retry fragment returns success after
exactly k + 1 invocations, the i-th inter-attempt delay is 2 to the i
times the 1000 millisecond base, and there is no delay after the final
invocation (the delay list has exactly k entries). -/
theorem uploadFileWithRetry_eventual_success (op : Nat → Option String)
    (k maxRetries : Nat) (hk : k < maxRetries)
    (hf : ∀ i, i < k → (op i).isSome) (hs : op k = none) :
    uploadFileWithRetry op maxRetries =
      ⟨true, k + 1, (List.range k).map (fun i => 2 ^ i * 1000), none⟩ := by
  have h := uploadGo_eventual_success op k 0 maxRetries none hk
    (fun i hi => by simpa using hf i hi) (by simpa using hs)
  simpa [uploadFileWithRetry] using h

/-- C3 witness: an upload that fails once then succeeds, with the default
budget of 3: success after 2 invocations and a single 1000 ms delay. -/
theorem uploadFileWithRetry_eventual_success_witness :
    (1 < 3 ∧ (∀ i, i < 1 → (((fun n => if n = 0 then some "err" else none) : Nat → Option String) i).isSome)
      ∧ ((fun n => if n = 0 then some "err" else none) : Nat → Option String) 1 = none)
    ∧ uploadFileWithRetry ((fun n => if n = 0 then some "err" else none) : Nat → Option String) 3 =
        ⟨true, 2, [1000], none⟩ := by
  refine ⟨⟨by decide, ?_, by decide⟩, ?_⟩
  · intro i hi
    have h0 : i = 0 := by omega
    subst h0
    decide
  · have h := uploadFileWithRetry_eventual_success
      ((fun n => if n = 0 then some "err" else none) : Nat → Option String) 1 3
      (by decide)
      (fun i hi => by
        have h0 : i = 0 := by omega
        subst h0
        decide)
      (by decide)
    simpa using h

/-- Run of the retry loop when the operation always fails: failure, with
one invocation per remaining attempt and the last error kept. -/
theorem uploadGo_all_fail (op : Nat → Option String) (h : ∀ i, (op i).isSome) :
    ∀ (remaining a : Nat) (le : Option String),
      (uploadGo op a le remaining).success = false
      ∧ (uploadGo op a le remaining).invocations = remaining
      ∧ (0 < remaining → (uploadGo op a le remaining).lastError = op (a + remaining - 1))
  | 0, a, le => by simp [uploadGo]
  | r + 1, a, le => by
    obtain ⟨e, he⟩ := Option.isSome_iff_exists.mp (h a)
    have ih := uploadGo_all_fail op h r (a + 1) (some e)
    rcases Nat.eq_zero_or_pos r with hr | hr
    · subst hr
      simp [uploadGo, he]
    · have hinv := ih.2.1
      have hlast := ih.2.2 hr
      have harg : a + 1 + r - 1 = a + (r + 1) - 1 := by omega
      rw [harg] at hlast
      simp [uploadGo, he, ih.1, hinv, hlast]

/-- The upload loop processes every file, in list order, exactly once:
the processed trace is the enumeration itself, the error list collects
exactly one message per failed file in order, and the uploaded counter
counts the successes.  In particular a failed item never aborts the
remaining items. -/
theorem syncLoop_spec (upl : UploadTask → RetryResult) (files : List UploadTask) :
    (syncLoop upl files).processed = files.map (fun f => (f.s3Key, (upl f).success))
    ∧ (syncLoop upl files).errors =
        (files.filter (fun f => !(upl f).success)).map
          (fun f => "Failed to upload " ++ f.s3Key ++ ": " ++
            ((upl f).lastError.getD "Upload failed after all retries"))
    ∧ (syncLoop upl files).uploaded = (files.filter (fun f => (upl f).success)).length := by
  induction files with
  | nil => refine ⟨rfl, rfl, rfl⟩
  | cons f rest ih =>
    by_cases hf : (upl f).success
    · simp [syncLoop, hf, ih.1, ih.2.1, ih.2.2]
    · simp [syncLoop, hf, ih.1, ih.2.1, ih.2.2]

/-- C4: if the wrapped upload always fails, the retry fragment invokes it
exactly maxRetries times (the script default is 3), reports failure and
carries the error of the final attempt; and in the surrounding sync loop
an item-level failure adds one error message yet every other file is
still processed, in order. -/
theorem uploadFileWithRetry_exhaustion (op : Nat → Option String) (maxRetries : Nat)
    (h : ∀ i, (op i).isSome) :
    (uploadFileWithRetry op maxRetries).success = false
    ∧ (uploadFileWithRetry op maxRetries).invocations = maxRetries
    ∧ (0 < maxRetries →
        (uploadFileWithRetry op maxRetries).lastError = op (maxRetries - 1))
    ∧ (∀ (upl : UploadTask → RetryResult) (files : List UploadTask),
        (syncLoop upl files).processed = files.map (fun f => (f.s3Key, (upl f).success))
        ∧ (syncLoop upl files).errors =
            (files.filter (fun f => !(upl f).success)).map
              (fun f => "Failed to upload " ++ f.s3Key ++ ": " ++
                ((upl f).lastError.getD "Upload failed after all retries"))) := by
  have hg := uploadGo_all_fail op h maxRetries 0 none
  refine ⟨hg.1, hg.2.1, ?_, ?_⟩
  · intro hpos
    have := hg.2.2 hpos
    simpa [uploadFileWithRetry] using this
  · intro upl files
    exact ⟨(syncLoop_spec upl files).1, (syncLoop_spec upl files).2.1⟩

/-- C4 witness: an always-failing upload with the default budget of 3
invokes the operation 3 times, with delays after the first two attempts
only, and carries the last error. -/
theorem uploadFileWithRetry_exhaustion_witness :
    (∀ i : Nat, (((fun _ => some "boom") : Nat → Option String) i).isSome)
    ∧ (uploadFileWithRetry ((fun _ => some "boom") : Nat → Option String) 3).success = false
    ∧ (uploadFileWithRetry ((fun _ => some "boom") : Nat → Option String) 3).invocations = 3
    ∧ uploadFileWithRetry ((fun _ => some "boom") : Nat → Option String) 3 =
        ⟨false, 3, [1000, 2000], some "boom"⟩ := by
  have h := uploadFileWithRetry_exhaustion ((fun _ => some "boom") : Nat → Option String) 3
    (fun _ => rfl)
  exact ⟨fun _ => rfl, h.1, h.2.1, by decide⟩

/- ───────── C7, C9, C10: migration runner ───────── -/

/-- Totality of the filename comparison. -/
theorem leChars_total : ∀ (as bs : List Char), leChars as bs = true ∨ leChars bs as = true
  | [], _ => Or.inl rfl
  | _ :: _, [] => Or.inr rfl
  | a :: as, b :: bs => by
    rcases Nat.lt_trichotomy a.toNat b.toNat with h | h | h
    · left; simp [leChars, h]
    · have hab : ¬ a.toNat < b.toNat := by omega
      have hba : ¬ b.toNat < a.toNat := by omega
      rcases leChars_total as bs with ih | ih
      · left; simp [leChars, hab, hba, ih]
      · right; simp [leChars, hab, hba, ih]
    · right; simp [leChars, h]

/-- Transitivity of the filename comparison. -/
theorem leChars_trans : ∀ (as bs cs : List Char),
    leChars as bs = true → leChars bs cs = true → leChars as cs = true
  | [], _, _, _, _ => rfl
  | _ :: _, [], _, h1, _ => by simp [leChars] at h1
  | _ :: _, _ :: _, [], _, h2 => by simp [leChars] at h2
  | a :: as, b :: bs, c :: cs, h1, h2 => by
    simp only [leChars] at h1 h2 ⊢
    rcases Nat.lt_trichotomy a.toNat b.toNat with hab | hab | hab <;>
      rcases Nat.lt_trichotomy b.toNat c.toNat with hbc | hbc | hbc
    · simp [show a.toNat < c.toNat by omega]
    · simp [show a.toNat < c.toNat by omega]
    · simp [show ¬ b.toNat < c.toNat by omega, show c.toNat < b.toNat by omega] at h2
    · simp [show a.toNat < c.toNat by omega]
    · have h1t : leChars as bs = true := by
        simpa [show ¬ a.toNat < b.toNat by omega, show ¬ b.toNat < a.toNat by omega] using h1
      have h2t : leChars bs cs = true := by
        simpa [show ¬ b.toNat < c.toNat by omega, show ¬ c.toNat < b.toNat by omega] using h2
      simp [show ¬ a.toNat < c.toNat by omega, show ¬ c.toNat < a.toNat by omega,
        leChars_trans as bs cs h1t h2t]
    · simp [show ¬ b.toNat < c.toNat by omega, show c.toNat < b.toNat by omega] at h2
    · simp [show ¬ a.toNat < b.toNat by omega, show b.toNat < a.toNat by omega] at h1
    · simp [show ¬ a.toNat < b.toNat by omega, show b.toNat < a.toNat by omega] at h1
    · simp [show ¬ a.toNat < b.toNat by omega, show b.toNat < a.toNat by omega] at h1

/-- Totality, on strings. -/
theorem leString_total (a b : String) : leString a b = true ∨ leString b a = true :=
  leChars_total a.toList b.toList

/-- Transitivity, on strings. -/
theorem leString_trans (a b c : String)
    (h1 : leString a b = true) (h2 : leString b c = true) : leString a c = true :=
  leChars_trans a.toList b.toList c.toList h1 h2

/-- Inserting into a list permutes consing onto it. -/
theorem insertSorted_perm (f : String) : ∀ l : List String,
    List.Perm (insertSorted f l) (f :: l)
  | [] => List.Perm.refl _
  | g :: rest => by
    by_cases h : leString f g = true
    · simp [insertSorted, h]
    · have hff : leString f g = false := Bool.not_eq_true _ |>.mp h
      simp only [insertSorted, hff, Bool.false_eq_true, if_false]
      exact ((insertSorted_perm f rest).cons g).trans (List.Perm.swap f g rest)

/-- The sort permutes its input. -/
theorem sortStrings_perm : ∀ l : List String, List.Perm (sortStrings l) l
  | [] => List.Perm.refl _
  | f :: rest => (insertSorted_perm f (sortStrings rest)).trans ((sortStrings_perm rest).cons f)

/-- Inserting into a sorted list keeps it sorted. -/
theorem insertSorted_pairwise (f : String) : ∀ l : List String,
    l.Pairwise (fun a b => leString a b = true) →
    (insertSorted f l).Pairwise (fun a b => leString a b = true)
  | [], _ => by simp [insertSorted]
  | g :: rest, hp => by
    rw [List.pairwise_cons] at hp
    obtain ⟨hg, hrest⟩ := hp
    by_cases h : leString f g = true
    · simp only [insertSorted, h, if_pos]
      rw [List.pairwise_cons]
      refine ⟨?_, List.pairwise_cons.mpr ⟨hg, hrest⟩⟩
      intro x hx
      rcases List.mem_cons.mp hx with rfl | hx'
      · exact h
      · exact leString_trans f g x h (hg x hx')
    · have hff : leString f g = false := Bool.not_eq_true _ |>.mp h
      simp only [insertSorted, hff, Bool.false_eq_true, if_false]
      rw [List.pairwise_cons]
      refine ⟨?_, insertSorted_pairwise f rest hrest⟩
      intro x hx
      have hgf : leString g f = true := (leString_total f g).resolve_left h
      rcases List.mem_cons.mp ((insertSorted_perm f rest).mem_iff.mp hx) with rfl | hx'
      · exact hgf
      · exact hg x hx'

/-- The sorted migration file list is sorted. -/
theorem sortStrings_pairwise : ∀ l : List String,
    (sortStrings l).Pairwise (fun a b => leString a b = true)
  | [] => List.Pairwise.nil
  | f :: rest => insertSorted_pairwise f (sortStrings rest) (sortStrings_pairwise rest)

/-- What the apply loop applies is a sublist, in order, of what it was
given. -/
theorem applyLoop_sublist (step : String → Option String) :
    ∀ l : List String, List.Sublist (applyLoop step l).appliedThisRun l
  | [] => by simp [applyLoop]
  | f :: rest => by
    cases hs : step f with
    | some e => simp [applyLoop, hs]
    | none =>
      simp only [applyLoop, hs]
      exact (applyLoop_sublist step rest).cons₂ f

/-- A filename already in the applied set is never pending. -/
theorem mem_applied_not_pending (sqlFiles applied : List String) (f : String)
    (hf : f ∈ applied) : f ∉ pendingOf sqlFiles applied := by
  intro hmem
  rw [pendingOf, List.mem_filter] at hmem
  have h1 := hmem.2
  have h2 : applied.contains f = true := List.elem_eq_true_of_mem hf
  rw [h2] at h1
  simp at h1

/-- C7: the tracking table is append-only.  The applied set is read once
and diffed against the files on disk: a filename in the applied set is
never pending and never applied again this run; what is applied this run
is an in-order sublist of the pending files; the final table is the
initial table with the newly applied names appended, nothing updated or
removed; and, when the directory listing has no duplicate names, each
newly applied name is appended exactly once. -/
theorem migrations_append_only (listing applied : List String)
    (step : String → Option String) :
    (∀ f ∈ applied, f ∉ pendingOf (sqlFilesOf listing) applied)
    ∧ (∀ f ∈ applied,
        f ∉ (applyLoop step (pendingOf (sqlFilesOf listing) applied)).appliedThisRun)
    ∧ List.Sublist
        (applyLoop step (pendingOf (sqlFilesOf listing) applied)).appliedThisRun
        (pendingOf (sqlFilesOf listing) applied)
    ∧ finalTable applied
        (applyLoop step (pendingOf (sqlFilesOf listing) applied)).appliedThisRun
      = applied ++ (applyLoop step (pendingOf (sqlFilesOf listing) applied)).appliedThisRun
    ∧ (listing.Nodup →
        (applyLoop step (pendingOf (sqlFilesOf listing) applied)).appliedThisRun.Nodup) := by
  refine ⟨fun f hf => mem_applied_not_pending _ applied f hf, ?_, ?_, rfl, ?_⟩
  · intro f hf hmem
    exact mem_applied_not_pending (sqlFilesOf listing) applied f hf
      ((applyLoop_sublist step _).subset hmem)
  · exact applyLoop_sublist step _
  · intro hnd
    have h1 : (listing.filter (fun f => endsWithS f ".sql")).Nodup := hnd.filter _
    have h2 : (sqlFilesOf listing).Nodup :=
      (sortStrings_perm _).nodup_iff.mpr h1
    have h3 : (pendingOf (sqlFilesOf listing) applied).Nodup := h2.filter _
    exact (applyLoop_sublist step _).nodup h3

/-- C7 witness: one applied file, two sql files on disk, every migration
step succeeding. -/
theorem migrations_append_only_witness :
    ("a.sql" ∈ (["a.sql"] : List String))
    ∧ "a.sql" ∉ pendingOf (sqlFilesOf ["b.sql", "a.sql", "notes.txt"]) ["a.sql"]
    ∧ "a.sql" ∉ (applyLoop (fun _ => none)
        (pendingOf (sqlFilesOf ["b.sql", "a.sql", "notes.txt"]) ["a.sql"])).appliedThisRun
    ∧ (applyLoop (fun _ => none)
        (pendingOf (sqlFilesOf ["b.sql", "a.sql", "notes.txt"]) ["a.sql"])).appliedThisRun.Nodup := by
  have h := migrations_append_only ["b.sql", "a.sql", "notes.txt"] ["a.sql"] (fun _ => none)
  refine ⟨by decide, h.1 "a.sql" (by decide), h.2.1 "a.sql" (by decide), h.2.2.2.2 (by decide)⟩

/-- C9: uploads and migrations are strictly sequential, in enumeration
order.  The upload phase of syncToS3 processes exactly the concatenation
of the source list and the dist list, one file at a time, its processed
trace being that enumeration itself; the migration runner applies an
in-order sublist of the sorted sql file list, which is sorted under the
filename comparison. -/
theorem sequential_enumeration_order :
    (∀ (upl : UploadTask → RetryResult) (c : CollectResult),
        (syncToS3 upl c).processed =
          (c.sourceFiles ++ c.distFiles).map (fun f => (f.s3Key, (upl f).success)))
    ∧ (∀ (listing applied : List String) (step : String → Option String),
        List.Sublist
          (applyLoop step (pendingOf (sqlFilesOf listing) applied)).appliedThisRun
          (sqlFilesOf listing)
        ∧ (sqlFilesOf listing).Pairwise (fun a b => leString a b = true)) := by
  constructor
  · intro upl c
    exact (syncLoop_spec upl (c.sourceFiles ++ c.distFiles)).1
  · intro listing applied step
    exact ⟨(applyLoop_sublist step _).trans (List.filter_sublist _),
      sortStrings_pairwise _⟩

/-- C10: when the read of the tracking table fails, getAppliedMigrations
returns the empty list instead of aborting, so every sql file on disk is
pending and will be applied again in that run. -/
theorem getAppliedMigrations_psql_failure (e : String) (listing : List String) :
    getAppliedMigrations (Except.error e) = []
    ∧ pendingOf (sqlFilesOf listing) (getAppliedMigrations (Except.error e)) =
        sqlFilesOf listing := by
  refine ⟨rfl, ?_⟩
  show pendingOf (sqlFilesOf listing) [] = sqlFilesOf listing
  simp [pendingOf]
